import Mathlib

/-!
Formal model of the fronthaul traffic pipeline (correlation → topology →
link aggregation → capacity estimation) of the Nokia-Hackathon backend,
together with proofs of the behavioural properties claimed for it.

Conventions of the embedding:
* Python floats are modelled as exact rationals (ℚ); all arithmetic in the
  source (sums, min/max, division, comparisons) is carried out exactly.
* `round(x, n)` on floats is modelled as round-half-to-even on ℚ.
* pandas DataFrames are modelled column-wise (capacity module) or as lists
  of records (correlation / aggregation modules).
* Python `raise` is modelled with `Except`; the error payload is an
  enumeration rather than the message string.
* Python `sorted` / `list.sort` (stable sorts) are modelled by a stable
  insertion sort (`pySort`), which computes the same list.
* Python `set` has unspecified iteration order; sets of strings are
  modelled as `Finset String`, and set-valued intermediate data is read
  off through membership predicates, which is order-independent.
-/

set_option maxRecDepth 4000

/-! ### Generic helpers: stable sort, maximum of a list, Python rounding -/

/-- One insertion step of a stable insertion sort (`le` is the `≤` test of
the sort key, as in Python's stable `sorted`). -/
def pySortInsert {α : Type} (le : α → α → Bool) (a : α) : List α → List α
  | [] => [a]
  | b :: bs => if le a b then a :: b :: bs else b :: pySortInsert le a bs

/-- Stable sort, modelling Python's `sorted` / `list.sort`. -/
def pySort {α : Type} (le : α → α → Bool) (l : List α) : List α :=
  l.foldr (pySortInsert le) []

/-- `max` of a column of values, as computed by `pandas.Series.max` /
Python `max` on a non-empty list.  (The source never takes the max of an
empty column on the paths modelled here; the `[]` case is junk.) -/
def listMax : List ℚ → ℚ
  | [] => 0
  | x :: xs => xs.foldl max x

/-- Round-half-to-even to an integer, the tie-breaking rule of Python's
built-in `round`. -/
def roundHalfEven (q : ℚ) : ℤ :=
  if Int.fract q = 1 / 2 then (if 2 ∣ ⌊q⌋ then ⌊q⌋ else ⌊q⌋ + 1) else round q

/-- Python's `round(x, n)` for floats, modelled exactly on ℚ. -/
def pyRound (n : ℕ) (q : ℚ) : ℚ :=
  (roundHalfEven (q * 10 ^ n) : ℚ) / 10 ^ n

/-- The numeric value of a decimal digit character (used to show that
decimal rendering of naturals, hence link labelling, is injective). -/
def digitVal (ch : Char) : ℕ := ch.toNat - 48

/-- The numeric value of a decimal digit string. -/
def evalDigits (l : List Char) : ℕ := l.foldl (fun a ch => 10 * a + digitVal ch) 0

/-! ### capacity_estimation.py -/

/-- Timing constant `SYMBOLS_PER_SLOT = 14`. -/
def SYMBOLS_PER_SLOT : ℚ := 14

/-- Timing constant `SLOT_DURATION_SECONDS = 500e-6`. -/
def SLOT_DURATION_SECONDS : ℚ := 500 / 1000000

/-- Mutable state of the buffer simulation loop in `simulate_buffer`:
current buffer occupancy, number of loss slots so far, peak occupancy. -/
structure BufState where
  occupancy : ℚ
  lossSlots : ℕ
  maxUsage : ℚ
deriving DecidableEq

/-- One iteration of the `for slot_traffic in traffic_per_slot` loop of
`simulate_buffer`: traffic arrives, the link transmits up to capacity,
overflow beyond the buffer is dropped, peak usage is tracked. -/
def bufferStep (capacity bufSize : ℚ) (s : BufState) (slotTraffic : ℚ) : BufState :=
  let total := s.occupancy + slotTraffic
  let transmitted := min total capacity
  let remaining := total - transmitted
  if bufSize < remaining then
    ⟨bufSize, s.lossSlots + 1, max s.maxUsage bufSize⟩
  else
    ⟨remaining, s.lossSlots, max s.maxUsage remaining⟩

/-- Result dictionary of `simulate_buffer`. -/
structure BufferSimResult where
  total_slots : ℕ
  loss_slots : ℕ
  loss_ratio : ℚ
  max_buffer_usage : ℚ
  buffer_size_bits : ℚ
deriving DecidableEq

/-- `simulate_buffer(traffic_per_slot, capacity_bits_per_slot, buffer_symbols)`:
FIFO buffer simulation; `buffer_size_bits = capacity * (buffer_symbols / 14)`. -/
def simulate_buffer (traffic_per_slot : List ℚ) (capacity_bits_per_slot : ℚ)
    (buffer_symbols : ℕ) : BufferSimResult :=
  let bufSize := capacity_bits_per_slot * ((buffer_symbols : ℚ) / SYMBOLS_PER_SLOT)
  let final := traffic_per_slot.foldl (bufferStep capacity_bits_per_slot bufSize) ⟨0, 0, 0⟩
  ⟨traffic_per_slot.length, final.lossSlots,
    if 0 < traffic_per_slot.length then (final.lossSlots : ℚ) / (traffic_per_slot.length : ℚ) else 0,
    final.maxUsage, bufSize⟩

/-- Per-slot overflow flags of the `simulate_buffer` state machine: entry `i`
is `true` exactly when the simulation records a loss in slot `i`.  This is the
same recurrence as `simulate_buffer`, instrumented to keep the per-slot
outcome instead of only the count. -/
def bufferLossFlags (traffic_per_slot : List ℚ) (capacity_bits_per_slot : ℚ)
    (buffer_symbols : ℕ) : List Bool :=
  let bufSize := capacity_bits_per_slot * ((buffer_symbols : ℚ) / SYMBOLS_PER_SLOT)
  (traffic_per_slot.foldl
    (fun p x =>
      let s := bufferStep capacity_bits_per_slot bufSize p.1 x
      (s, p.2 ++ [decide (p.1.lossSlots < s.lossSlots)]))
    ((⟨0, 0, 0⟩ : BufState), ([] : List Bool))).2

/-- The binary-search loop of `find_minimum_capacity`
(`while (max_capacity - min_capacity) > precision and iterations < max_iterations`),
with the remaining iteration budget as explicit fuel (the source caps it at 100). -/
def bsLoop (traffic : List ℚ) (buffer_symbols : ℕ) (loss_tolerance precision : ℚ) :
    ℕ → ℚ → ℚ → ℚ
  | 0, _, hi => hi
  | fuel + 1, lo, hi =>
    if precision < hi - lo then
      let mid := (lo + hi) / 2
      if (simulate_buffer traffic mid buffer_symbols).loss_ratio ≤ loss_tolerance then
        bsLoop traffic buffer_symbols loss_tolerance precision fuel lo mid
      else
        bsLoop traffic buffer_symbols loss_tolerance precision fuel mid hi
    else hi

/-- `find_minimum_capacity(traffic_per_slot, buffer_symbols, loss_tolerance)`:
binary search between `max(mean/2, 1)` and `max(traffic)` with precision
`0.001 * max(traffic)` and at most 100 iterations; returns the upper bound. -/
def find_minimum_capacity (traffic_per_slot : List ℚ) (buffer_symbols : ℕ)
    (loss_tolerance : ℚ) : ℚ :=
  if traffic_per_slot = [] then 0
  else
    let mean := traffic_per_slot.sum / (traffic_per_slot.length : ℚ)
    let max_capacity := listMax traffic_per_slot
    let min_capacity := max (mean * (1 / 2)) 1
    let precision := max_capacity * (1 / 1000)
    bsLoop traffic_per_slot buffer_symbols loss_tolerance precision 100 min_capacity max_capacity

/-- Errors raised by the capacity-estimation entry points (the source raises
`ValueError("no link columns found...")`; only the fact of the error is
modelled, not the message text). -/
inductive CapacityError where
  | noLinkColumns : CapacityError
deriving DecidableEq

/-- The `"_bits"` suffix that identifies link-traffic columns. -/
def bitsSuffix : String := "_bits"

/-- The empty replacement string used by `col.replace("_bits", "")`. -/
def emptyStr : String := ""

/-- Python's `str.endswith`, computed structurally on the character list. -/
def strEndsWith (s suffix : String) : Bool :=
  List.isSuffixOf suffix.data s.data

/-- Python's `str.replace` (all non-overlapping occurrences, left to right),
computed structurally on character lists; the first argument is the length
of the text, which bounds the number of scanning steps. -/
def strReplaceFuel (p r : List Char) : ℕ → List Char → List Char
  | 0, l => l
  | _ + 1, [] => []
  | fuel + 1, c :: rest =>
    if p ≠ [] ∧ List.isPrefixOf p (c :: rest) then
      r ++ strReplaceFuel p r fuel (List.drop (p.length - 1) rest)
    else c :: strReplaceFuel p r fuel rest

/-- Python's `str.replace` on `String`. -/
def pyReplace (s pattern repl : String) : String :=
  ⟨strReplaceFuel pattern.data repl.data s.data.length s.data⟩

/-- Lexicographic-by-code-point `≤` on character lists, the comparison
Python uses on strings, computed structurally. -/
def charListLe : List Char → List Char → Bool
  | [], _ => true
  | _ :: _, [] => false
  | a :: as, b :: bs =>
    if a.toNat < b.toNat then true
    else if b.toNat < a.toNat then false
    else charListLe as bs

/-- Python's string `<=`. -/
def strLe (a b : String) : Bool := charListLe a.data b.data

/-- `col.replace("_bits", "")`, the link-name extraction of the source. -/
def stripBits (s : String) : String := pyReplace s bitsSuffix emptyStr

/-- A link-traffic DataFrame, column-wise: the `slot_id` column plus the
remaining named columns (rows are aligned by position). -/
structure TrafficFrame where
  slot_id : List ℤ
  columns : List (String × List ℚ)

/-- The `[col for col in df.columns if col.endswith("_bits")]` filter. -/
def linkCols (df : TrafficFrame) : List (String × List ℚ) :=
  df.columns.filter (fun c => strEndsWith c.1 bitsSuffix)

/-- `estimate_capacity_no_buffer(link_traffic_df)`: per link-column, the
required capacity is the maximum observed traffic; raises if there is no
link column. -/
def estimate_capacity_no_buffer (df : TrafficFrame) :
    Except CapacityError (List (String × ℚ)) :=
  if linkCols df = [] then .error .noLinkColumns
  else .ok ((linkCols df).map (fun c => (stripBits c.1, listMax c.2)))

/-- `capacity_to_gbps(capacity)`: `round(bits_per_slot / 500e-6 / 1e9, 2)`
per link. -/
def capacity_to_gbps (capacity : List (String × ℚ)) : List (String × ℚ) :=
  capacity.map (fun p => (p.1, pyRound 2 (p.2 / SLOT_DURATION_SECONDS / 1000000000)))

/-- The per-column trace extraction of `estimate_capacity_with_buffer`:
rows are sorted by `slot_id` (stable, as `DataFrame.sort_values` is) and the
column values are read off in that order. -/
def sortBySlot (slotIds : List ℤ) (vals : List ℚ) : List ℚ :=
  (pySort (fun a b => decide (a.1 ≤ b.1)) (slotIds.zip vals)).map (fun p => p.2)

/-- `estimate_capacity_with_buffer(link_traffic_df, buffer_symbols, loss_tolerance)`:
raises if there is no link column, otherwise runs `find_minimum_capacity`
on each link's slot-ordered trace. -/
def estimate_capacity_with_buffer (df : TrafficFrame) (buffer_symbols : ℕ)
    (loss_tolerance : ℚ) : Except CapacityError (List (String × ℚ)) :=
  if linkCols df = [] then .error .noLinkColumns
  else .ok ((linkCols df).map (fun c =>
    (stripBits c.1,
      find_minimum_capacity (sortBySlot df.slot_id c.2) buffer_symbols loss_tolerance)))

/-! ### correlation.py -/

/-- One labeled traffic record, as consumed by
`compute_congestion_correlation` (columns `timestamp`, `cell_id`,
`is_congested`; the other columns of the frame are irrelevant here). -/
structure LabeledRecord where
  timestamp : ℚ
  cell_id : String
  is_congested : Bool

/-- `df["cell_id"].unique().tolist()`.  (`List.dedup` keeps the last
occurrence while pandas keeps the first; every property proved below is
independent of the order of this list.) -/
def cellIds (df : List LabeledRecord) : List String :=
  (df.map (fun r => r.cell_id)).dedup

/-- The set of congested timestamps of one cell
(`set(cell_data[cell_data["is_congested"]]["timestamp"])`). -/
def congestedTimestamps (df : List LabeledRecord) (cell : String) : Finset ℚ :=
  ((df.filter (fun r => decide (r.cell_id = cell) && r.is_congested)).map
    (fun r => r.timestamp)).toFinset

/-- The un-rounded correlation of one ordered pair:
`overlap / min(count_a, count_b)`, with the explicit `0.0` policy when the
denominator is zero. -/
def corrValue (df : List LabeledRecord) (a b : String) : ℚ :=
  let ta := congestedTimestamps df a
  let tb := congestedTimestamps df b
  let minCount := min ta.card tb.card
  if minCount = 0 then 0 else ((ta ∩ tb).card : ℚ) / (minCount : ℚ)

/-- `compute_congestion_correlation(df)`: for every ordered pair of distinct
cells, the rounded (4 decimal places) congestion-overlap correlation. -/
def compute_congestion_correlation (df : List LabeledRecord) :
    List (String × List (String × ℚ)) :=
  (cellIds df).map (fun a =>
    (a, ((cellIds df).filter (fun b => decide (b ≠ a))).map
      (fun b => (b, pyRound 4 (corrValue df a b)))))

/-! ### link_aggregation.py -/

/-- One row of the slot-level input frame of
`aggregate_slot_traffic_by_link`. -/
structure SlotRecord where
  slot_id : ℤ
  cell_id : String
  slot_throughput_bits : ℚ

/-- The synthetic bucket for cells that are missing from the topology. -/
def unknownLink : String := "Unknown_Link"

/-- `data["cell_id"].map(topology).fillna("Unknown_Link")` for one cell. -/
def linkOf (topology : List (String × String)) (cell : String) : String :=
  (topology.lookup cell).getD unknownLink

/-- The link columns of the pivoted output: the distinct link ids observed
in the data, sorted lexicographically (the source sorts the link columns). -/
def linkLabels (recs : List SlotRecord) (topo : List (String × String)) : List String :=
  pySort strLe ((recs.map (fun r => linkOf topo r.cell_id)).dedup)

/-- The row index of the pivoted output: the distinct observed `slot_id`s,
sorted ascending (as `DataFrame.pivot` sorts its index). -/
def slotIdsOf (recs : List SlotRecord) : List ℤ :=
  pySort (fun a b => decide (a ≤ b)) ((recs.map (fun r => r.slot_id)).dedup)

/-- One cell of the pivoted output: the summed traffic of `link` in `slot`.
This is `groupby(["slot_id", "link_id"]).sum` followed by `pivot` and
`fillna(0)`: a (slot, link) pair with no contributing record gets the sum
of the empty list, `0`. -/
def linkTrafficAt (recs : List SlotRecord) (topo : List (String × String))
    (s : ℤ) (link : String) : ℚ :=
  ((recs.filter (fun r =>
    decide (r.slot_id = s) && decide (linkOf topo r.cell_id = link))).map
    (fun r => r.slot_throughput_bits)).sum

/-- `aggregate_slot_traffic_by_link(slot_df, topology)`: one output row per
observed slot, one column per observed link. -/
def aggregate_slot_traffic_by_link (recs : List SlotRecord)
    (topo : List (String × String)) : List (ℤ × List (String × ℚ)) :=
  (slotIdsOf recs).map (fun s =>
    (s, (linkLabels recs topo).map (fun l => (l, linkTrafficAt recs topo s l))))

/-! ### topology.py -/

/-- All cell ids appearing in a correlation matrix, as outer keys or inner
keys (`all_cells = set(keys); all_cells.update(inner keys)`; Python's set
iteration order is unspecified, and nothing below depends on the order of
this list). -/
def allCells (M : List (String × List (String × ℚ))) : List String :=
  (M.map (fun p => p.1) ++ M.flatMap (fun p => p.2.map (fun q => q.1))).dedup

/-- The undirected threshold graph of `infer_topology`: `a` and `b` are
adjacent when some stored entry `(a, b)` or `(b, a)` has correlation
`≥ threshold` (the source inserts both directions into its adjacency sets). -/
def edgeB (M : List (String × List (String × ℚ))) (t : ℚ) (a b : String) : Bool :=
  M.any (fun p => decide (p.1 = a) &&
    p.2.any (fun q => decide (q.1 = b) && decide (t ≤ q.2))) ||
  M.any (fun p => decide (p.1 = b) &&
    p.2.any (fun q => decide (q.1 = a) && decide (t ≤ q.2)))

/-- The adjacency set `adjacency[a]` of the source, read off as the cells
adjacent to `a` (every member of an adjacency set is a matrix key, hence in
`allCells`; the set's iteration order is unspecified in Python). -/
def neighbors (M : List (String × List (String × ℚ))) (t : ℚ) (a : String) : List String :=
  (allCells M).filter (fun b => edgeB M t a b)

/-- The BFS of `infer_topology`: pop the queue head; skip it if already
visited, otherwise visit it, append it to the component under construction
and enqueue its not-yet-visited neighbours.  The final hypothesis (queue
members are cells) only serves termination and is proof-irrelevant. -/
def bfsAux (M : List (String × List (String × ℚ))) (t : ℚ) :
    (queue : List String) → (visited : Finset String) → (comp : List String) →
    (∀ x ∈ queue, x ∈ (allCells M).toFinset) → Finset String × List String
  | [], visited, comp, _ => (visited, comp)
  | c :: rest, visited, comp, hq =>
    if hc : c ∈ visited then
      bfsAux M t rest visited comp (fun x hx => hq x (List.mem_cons_of_mem c hx))
    else
      bfsAux M t
        (rest ++ (neighbors M t c).filter (fun n => decide (n ∉ insert c visited)))
        (insert c visited) (comp ++ [c])
        (by
          intro x hx
          rcases List.mem_append.1 hx with h | h
          · exact hq x (List.mem_cons_of_mem c h)
          · exact List.mem_toFinset.2 (List.mem_of_mem_filter (List.mem_of_mem_filter h)))
termination_by queue visited comp hq => (((allCells M).toFinset \ visited).card, queue.length)
decreasing_by
  · apply Prod.Lex.right
    simp
  · apply Prod.Lex.left
    apply Finset.card_lt_card
    constructor
    · exact Finset.sdiff_subset_sdiff (le_refl _) (Finset.subset_insert c visited)
    · intro hsub
      have hc2 : c ∈ (allCells M).toFinset \ visited :=
        Finset.mem_sdiff.2 ⟨hq c (List.mem_cons_self c rest), hc⟩
      have hmem := hsub hc2
      rw [Finset.mem_sdiff] at hmem
      exact hmem.2 (Finset.mem_insert_self c visited)

/-- The outer loop of `infer_topology`: scan the cells in order, starting a
BFS at each not-yet-visited cell and collecting the components. -/
def buildComponents (M : List (String × List (String × ℚ))) (t : ℚ) :
    (cells : List String) → (visited : Finset String) →
    (∀ x ∈ cells, x ∈ (allCells M).toFinset) → List (List String)
  | [], _, _ => []
  | c :: rest, visited, hcells =>
    if c ∈ visited then
      buildComponents M t rest visited (fun x hx => hcells x (List.mem_cons_of_mem c hx))
    else
      let r := bfsAux M t [c] visited []
        (fun x hx => List.mem_singleton.1 hx ▸ hcells c (List.mem_cons_self c rest))
      r.2 :: buildComponents M t rest r.1 (fun x hx => hcells x (List.mem_cons_of_mem c hx))

/-- Lexicographic-by-code-point `<` on character lists (Python string `<`),
computed structurally. -/
def charListLt : List Char → List Char → Bool
  | [], [] => false
  | [], _ :: _ => true
  | _ :: _, [] => false
  | a :: as, b :: bs =>
    if a.toNat < b.toNat then true
    else if b.toNat < a.toNat then false
    else charListLt as bs

/-- Python's string `<`. -/
def strLt (a b : String) : Bool := charListLt a.data b.data

/-- Python's `min` over the (always non-empty) member list of a component. -/
def minString (c : List String) : String :=
  match c with
  | [] => emptyStr
  | x :: xs => xs.foldl (fun m s => if strLt s m then s else m) x

/-- The sort key `(-len(c), min(c))` of `components.sort`, as a boolean
`≤` test between components. -/
def compLe (c1 c2 : List String) : Bool :=
  decide (c2.length < c1.length) ||
    (decide (c1.length = c2.length) && strLe (minString c1) (minString c2))

/-- The label `f"Link_{link_index}"` of the component at 0-based position
`i` (`enumerate(components, start=1)`). -/
def linkLabelFor (i : ℕ) : String := "Link_" ++ Nat.repr (i + 1)

/-- The `cell_to_link` dictionary of the source, built component by
component with the labels `Link_1`, `Link_2`, ... in order. -/
def labelComponents : ℕ → List (List String) → List (String × String)
  | _, [] => []
  | i, comp :: rest =>
    comp.map (fun cell => (cell, linkLabelFor i)) ++ labelComponents (i + 1) rest

/-- `infer_topology(correlation_matrix, threshold)`: threshold graph,
connected components by BFS, components sorted by `(-size, min member)`,
labels assigned in sorted order. -/
def infer_topology (M : List (String × List (String × ℚ))) (t : ℚ) :
    List (String × String) :=
  labelComponents 0 (pySort compLe
    (buildComponents M t (allCells M) ∅ (fun x hx => List.mem_toFinset.2 hx)))

/-- The three-cell correlation matrix of the transitive-linking example:
`corr(1,2) = 0.9`, `corr(2,3) = 0.8`, `corr(1,3) = 0.1`. -/
def corrExample : List (String × List (String × ℚ)) :=
  [("cell_1", [("cell_2", 9 / 10), ("cell_3", 1 / 10)]),
   ("cell_2", [("cell_1", 9 / 10), ("cell_3", 8 / 10)]),
   ("cell_3", [("cell_1", 1 / 10), ("cell_2", 8 / 10)])]

/-! ### Theorems -/

/-- `pySort` permutes its input. -/
theorem pySortInsert_perm {α : Type} (le : α → α → Bool) (a : α) (l : List α) :
    (pySortInsert le a l).Perm (a :: l) := by
  induction l with
  | nil => simp [pySortInsert]
  | cons b bs ih =>
    simp only [pySortInsert]
    by_cases h : le a b = true
    · simp [h]
    · simp only [h]
      simp only [Bool.false_eq_true, if_false]
      exact (ih.cons b).trans (List.Perm.swap a b bs)

theorem pySort_perm {α : Type} (le : α → α → Bool) (l : List α) :
    (pySort le l).Perm l := by
  induction l with
  | nil => simp [pySort]
  | cons a l ih =>
    exact ((pySortInsert_perm le a (pySort le l)).trans (ih.cons a))

/-- The seed of a `foldl max` is a lower bound of the result. -/
theorem le_foldl_max (l : List ℚ) (a : ℚ) : a ≤ l.foldl max a := by
  induction l generalizing a with
  | nil => simp
  | cons b bs ih => exact le_trans (le_max_left a b) (ih (max a b))

/-- Every list element is a lower bound of a `foldl max` over the list. -/
theorem mem_le_foldl_max {l : List ℚ} {x : ℚ} (hx : x ∈ l) (a : ℚ) :
    x ≤ l.foldl max a := by
  induction l generalizing a with
  | nil => cases hx
  | cons b bs ih =>
    rcases List.mem_cons.1 hx with h | h
    · subst h
      exact le_trans (le_max_right a x) (le_foldl_max bs _)
    · exact ih h _

/-- A `foldl max` is either its seed or an element of the list. -/
theorem foldl_max_mem (l : List ℚ) (a : ℚ) : l.foldl max a = a ∨ l.foldl max a ∈ l := by
  induction l generalizing a with
  | nil => left; rfl
  | cons b bs ih =>
    rcases ih (max a b) with h | h
    · rcases max_cases a b with ⟨h1, _⟩ | ⟨h1, _⟩
      · left; rw [List.foldl_cons, h, h1]
      · right; rw [List.foldl_cons, h, h1]; simp
    · right
      rw [List.foldl_cons]
      exact List.mem_cons.2 (Or.inr h)

/-- Every element of a non-empty column is at most `listMax`. -/
theorem le_listMax {l : List ℚ} {x : ℚ} (hx : x ∈ l) : x ≤ listMax l := by
  match l with
  | y :: ys =>
    simp only [listMax]
    rcases List.mem_cons.1 hx with h | h
    · subst h; exact le_foldl_max ys x
    · exact mem_le_foldl_max h y

/-- `listMax` of a non-empty column is one of its entries. -/
theorem listMax_mem {l : List ℚ} (h : l ≠ []) : listMax l ∈ l := by
  match l with
  | y :: ys =>
    simp only [listMax]
    rcases foldl_max_mem ys y with h1 | h1
    · rw [h1]; exact List.mem_cons_self _ _
    · exact List.mem_cons.2 (Or.inr h1)

/-- With a non-negative precision, the binary-search loop never returns more
than its upper bound. -/
theorem bsLoop_le (traffic : List ℚ) (bs : ℕ) (tol precision : ℚ)
    (hp : 0 ≤ precision) :
    ∀ (fuel : ℕ) (lo hi : ℚ), bsLoop traffic bs tol precision fuel lo hi ≤ hi := by
  intro fuel
  induction fuel with
  | zero => intro lo hi; exact le_refl hi
  | succ n ih =>
    intro lo hi
    simp only [bsLoop]
    by_cases hg : precision < hi - lo
    · rw [if_pos hg]
      have hmid : (lo + hi) / 2 < hi := by linarith
      by_cases hf : (simulate_buffer traffic ((lo + hi) / 2) bs).loss_ratio ≤ tol
      · rw [if_pos hf]
        exact le_trans (ih lo ((lo + hi) / 2)) (le_of_lt hmid)
      · rw [if_neg hf]
        exact ih ((lo + hi) / 2) hi
    · rw [if_neg hg]

/-- A loop round whose guard fails returns the upper bound unchanged. -/
theorem bsLoop_guard_false (traffic : List ℚ) (bs : ℕ) (tol precision : ℚ)
    (fuel : ℕ) (lo hi : ℚ) (hg : ¬ precision < hi - lo) :
    bsLoop traffic bs tol precision (fuel + 1) lo hi = hi := by
  simp only [bsLoop]
  rw [if_neg hg]

/-- When the trace maximum is negative the loop guard fails immediately
(the lower bound is clamped to at least 1), so the loop returns the
maximum unchanged. -/
theorem bsLoop_neg_max (traffic : List ℚ) (bs : ℕ) (tol M lo : ℚ)
    (hM : M < 0) (h1 : 1 ≤ lo) :
    bsLoop traffic bs tol (M * (1 / 1000)) 100 lo M = M :=
  bsLoop_guard_false traffic bs tol _ 99 lo M (by intro h; linarith)

/-- `find_minimum_capacity` never exceeds the trace maximum. -/
theorem find_minimum_capacity_le_listMax (traffic : List ℚ) (bs : ℕ) (tol : ℚ)
    (hne : traffic ≠ []) :
    find_minimum_capacity traffic bs tol ≤ listMax traffic := by
  simp only [find_minimum_capacity]
  rw [if_neg hne]
  by_cases hM : 0 ≤ listMax traffic
  · exact bsLoop_le traffic bs tol _ (by positivity) 100 _ _
  · push_neg at hM
    rw [bsLoop_neg_max traffic bs tol _ _ hM (le_max_right _ 1)]

/-- Coupled binary searches at tolerances `t1 ≤ t2` keep their intervals
either identical or separated (`hi₂ ≤ lo₁`) with equal widths, so the run at
the larger tolerance never returns more. -/
theorem bsLoop_antitone_aux (traffic : List ℚ) (bs : ℕ) (t1 t2 precision : ℚ)
    (ht : t1 ≤ t2) (hp : 0 ≤ precision) :
    ∀ (fuel : ℕ) (lo1 hi1 lo2 hi2 : ℚ),
      ((lo2 = lo1 ∧ hi2 = hi1) ∨ (hi2 ≤ lo1 ∧ hi2 - lo2 = hi1 - lo1 ∧ lo2 ≤ hi2)) →
      bsLoop traffic bs t2 precision fuel lo2 hi2 ≤
        bsLoop traffic bs t1 precision fuel lo1 hi1 := by
  intro fuel
  induction fuel with
  | zero =>
    intro lo1 hi1 lo2 hi2 hR
    simp only [bsLoop]
    rcases hR with ⟨_, hh⟩ | ⟨hd, hlen, hle⟩
    · exact le_of_eq hh
    · linarith
  | succ n ih =>
    intro lo1 hi1 lo2 hi2 hR
    rcases hR with ⟨hl, hh⟩ | ⟨hd, hlen, hle⟩
    · subst hl; subst hh
      simp only [bsLoop]
      by_cases hg : precision < hi2 - lo2
      · rw [if_pos hg, if_pos hg]
        by_cases h1 : (simulate_buffer traffic ((lo2 + hi2) / 2) bs).loss_ratio ≤ t1
        · rw [if_pos (le_trans h1 ht), if_pos h1]
          exact ih lo2 ((lo2 + hi2) / 2) lo2 ((lo2 + hi2) / 2) (Or.inl ⟨rfl, rfl⟩)
        · rw [if_neg h1]
          by_cases h2 : (simulate_buffer traffic ((lo2 + hi2) / 2) bs).loss_ratio ≤ t2
          · rw [if_pos h2]
            exact ih ((lo2 + hi2) / 2) hi2 lo2 ((lo2 + hi2) / 2)
              (Or.inr ⟨le_refl _, by ring, by linarith⟩)
          · rw [if_neg h2]
            exact ih ((lo2 + hi2) / 2) hi2 ((lo2 + hi2) / 2) hi2 (Or.inl ⟨rfl, rfl⟩)
      · rw [if_neg hg, if_neg hg]
    · simp only [bsLoop]
      by_cases hg : precision < hi1 - lo1
      · rw [if_pos hg, if_pos (show precision < hi2 - lo2 by linarith)]
        have hlo1hi1 : lo1 ≤ hi1 := by linarith
        by_cases h2 : (simulate_buffer traffic ((lo2 + hi2) / 2) bs).loss_ratio ≤ t2 <;>
          by_cases h1 : (simulate_buffer traffic ((lo1 + hi1) / 2) bs).loss_ratio ≤ t1
        · rw [if_pos h2, if_pos h1]
          exact ih lo1 ((lo1 + hi1) / 2) lo2 ((lo2 + hi2) / 2)
            (Or.inr ⟨by linarith, by linarith, by linarith⟩)
        · rw [if_pos h2, if_neg h1]
          exact ih ((lo1 + hi1) / 2) hi1 lo2 ((lo2 + hi2) / 2)
            (Or.inr ⟨by linarith, by linarith, by linarith⟩)
        · rw [if_neg h2, if_pos h1]
          exact ih lo1 ((lo1 + hi1) / 2) ((lo2 + hi2) / 2) hi2
            (Or.inr ⟨by linarith, by linarith, by linarith⟩)
        · rw [if_neg h2, if_neg h1]
          exact ih ((lo1 + hi1) / 2) hi1 ((lo2 + hi2) / 2) hi2
            (Or.inr ⟨by linarith, by linarith, by linarith⟩)
      · rw [if_neg hg, if_neg (show ¬ precision < hi2 - lo2 by rw [hlen]; exact hg)]
        linarith

/-- Claim C4: for every non-empty trace and fixed `buffer_symbols`, the
capacity returned by `find_minimum_capacity` is antitone in the loss
tolerance: if `t1 ≤ t2` then the result at `t2` is at most the result
at `t1`. -/
theorem find_minimum_capacity_antitone_tolerance (traffic : List ℚ) (bs : ℕ)
    (t1 t2 : ℚ) (hne : traffic ≠ []) (ht : t1 ≤ t2) :
    find_minimum_capacity traffic bs t2 ≤ find_minimum_capacity traffic bs t1 := by
  simp only [find_minimum_capacity]
  rw [if_neg hne, if_neg hne]
  by_cases hM : 0 ≤ listMax traffic
  · exact bsLoop_antitone_aux traffic bs t1 t2 _ ht (by positivity) 100 _ _ _ _
      (Or.inl ⟨rfl, rfl⟩)
  · push_neg at hM
    rw [bsLoop_neg_max traffic bs t2 _ _ hM (le_max_right _ 1),
      bsLoop_neg_max traffic bs t1 _ _ hM (le_max_right _ 1)]

/-- Witness for C4 at the trace `[10, 20]`, `buffer_symbols = 4`,
tolerances `1/4 ≤ 1/2`. -/
theorem find_minimum_capacity_antitone_tolerance_witness :
    find_minimum_capacity [10, 20] 4 (1 / 2) ≤ find_minimum_capacity [10, 20] 4 (1 / 4) :=
  find_minimum_capacity_antitone_tolerance [10, 20] 4 (1 / 4) (1 / 2)
    (by decide) (by norm_num)

/-- Claim C5: for every non-empty trace, buffer size and positive loss
tolerance, the buffer-aware capacity is at most the no-buffer capacity
`max(trace)`. -/
theorem find_minimum_capacity_le_no_buffer (traffic : List ℚ) (bs : ℕ) (tol : ℚ)
    (hne : traffic ≠ []) (ht : 0 < tol) :
    find_minimum_capacity traffic bs tol ≤ listMax traffic :=
  find_minimum_capacity_le_listMax traffic bs tol hne

/-- Witness for C5 at the trace `[10, 20, 30]`, `buffer_symbols = 4`,
tolerance `1/100`. -/
theorem find_minimum_capacity_le_no_buffer_witness :
    find_minimum_capacity [10, 20, 30] 4 (1 / 100) ≤ listMax [10, 20, 30] :=
  find_minimum_capacity_le_no_buffer [10, 20, 30] 4 (1 / 100) (by decide) (by norm_num)

/-- One unfolding step of the binary-search loop, for explicit fuel values. -/
theorem bsLoop_succ (traffic : List ℚ) (bs : ℕ) (tol precision : ℚ)
    (fuel : ℕ) (lo hi : ℚ) :
    bsLoop traffic bs tol precision (fuel + 1) lo hi =
      if precision < hi - lo then
        if (simulate_buffer traffic ((lo + hi) / 2) bs).loss_ratio ≤ tol then
          bsLoop traffic bs tol precision fuel lo ((lo + hi) / 2)
        else
          bsLoop traffic bs tol precision fuel ((lo + hi) / 2) hi
      else hi := by
  simp only [bsLoop]

/-- Claim C1: simulating the trace `[10, 10, 40, 10, 10]` at candidate
capacity 15 with `buffer_symbols = 4` (14 symbols per slot) gives
`buffer_size_bits = 15 * (4/14) = 30/7 ≈ 4.2857`, exactly one loss slot —
at slot index 2 — out of 5 slots, and `loss_ratio = 1/5 = 0.2`. -/
theorem simulate_buffer_worked_example :
    simulate_buffer [10, 10, 40, 10, 10] 15 4 =
      ⟨5, 1, 1 / 5, 30 / 7, 30 / 7⟩ ∧
    (15 : ℚ) * ((4 : ℚ) / 14) = 30 / 7 ∧
    bufferLossFlags [10, 10, 40, 10, 10] 15 4 = [false, false, true, false, false] := by
  refine ⟨?_, by norm_num, ?_⟩ <;>
    norm_num [simulate_buffer, bufferLossFlags, bufferStep, SYMBOLS_PER_SLOT]

/-- Claim C2: on any table with at least one link-traffic column (and
non-empty columns), `estimate_capacity_no_buffer` succeeds and maps each
link to exactly the maximum of its per-slot traffic values: the reported
capacity is an element of the column and an upper bound of it. -/
theorem estimate_capacity_no_buffer_max (df : TrafficFrame)
    (hne : linkCols df ≠ []) (hcols : ∀ c ∈ df.columns, c.2 ≠ []) :
    ∃ m, estimate_capacity_no_buffer df = .ok m ∧
      ∀ c ∈ df.columns, strEndsWith c.1 bitsSuffix = true →
        ∃ v, (stripBits c.1, v) ∈ m ∧ v ∈ c.2 ∧ ∀ x ∈ c.2, x ≤ v := by
  refine ⟨(linkCols df).map (fun c => (stripBits c.1, listMax c.2)), ?_, ?_⟩
  · simp only [estimate_capacity_no_buffer]
    rw [if_neg hne]
  · intro c hc hend
    refine ⟨listMax c.2, ?_, listMax_mem (hcols c hc), fun x hx => le_listMax hx⟩
    exact List.mem_map.2 ⟨c, List.mem_filter.2 ⟨hc, hend⟩, rfl⟩

/-- Witness for C2 on a two-link table with an all-zero trace and a
singleton-like trace alongside a non-link column. -/
theorem estimate_capacity_no_buffer_max_witness :
    ∃ m, estimate_capacity_no_buffer
        ⟨[0, 1], [(("Link_1_bits" : String), [0, 0]), (("Link_2_bits" : String), [7, 3])]⟩ = .ok m ∧
      ∀ c ∈ [(("Link_1_bits" : String), [(0 : ℚ), 0]), (("Link_2_bits" : String), [7, 3])],
        strEndsWith c.1 bitsSuffix = true →
        ∃ v, (stripBits c.1, v) ∈ m ∧ v ∈ c.2 ∧ ∀ x ∈ c.2, x ≤ v :=
  estimate_capacity_no_buffer_max
    ⟨[0, 1], [(("Link_1_bits" : String), [0, 0]), (("Link_2_bits" : String), [7, 3])]⟩
    (by decide) (by decide)

/-- Counterexample to claim C3: on the constant one-element trace `[1000]`
(with `buffer_symbols = 4` and the default tolerance `0.01`) the binary
search accepts capacities strictly below the constant, so
`find_minimum_capacity` does not return the constant. -/
theorem find_minimum_capacity_constant_counterexample :
    List.replicate 1 (1000 : ℚ) = [1000] ∧
    find_minimum_capacity [1000] 4 (1 / 100) ≠ 1000 := by
  refine ⟨rfl, ?_⟩
  have h1 : find_minimum_capacity [1000] 4 (1 / 100) =
      bsLoop [1000] 4 (1 / 100) 1 100 500 1000 := by
    norm_num [find_minimum_capacity, listMax]
  have h2 : bsLoop [1000] 4 (1 / 100) 1 100 500 1000 =
      bsLoop [1000] 4 (1 / 100) 1 99 750 1000 := by
    rw [show (100 : ℕ) = 99 + 1 from rfl, bsLoop_succ]
    norm_num [simulate_buffer, bufferStep, SYMBOLS_PER_SLOT]
  have h3 : bsLoop [1000] 4 (1 / 100) 1 99 750 1000 =
      bsLoop [1000] 4 (1 / 100) 1 98 750 875 := by
    rw [show (99 : ℕ) = 98 + 1 from rfl, bsLoop_succ]
    norm_num [simulate_buffer, bufferStep, SYMBOLS_PER_SLOT]
  have h4 : bsLoop [1000] 4 (1 / 100) 1 98 750 875 ≤ 875 :=
    bsLoop_le [1000] 4 (1 / 100) 1 (by norm_num) 98 750 875
  rw [h1, h2, h3]
  exact ne_of_lt (lt_of_le_of_lt h4 (by norm_num))

/-- Claim C3 as amended: for every non-empty constant trace `[c, ..., c]`
the no-buffer capacity (the trace maximum) equals `c`, and the buffer-aware
capacity of `find_minimum_capacity` is at most `c` (it can be strictly
smaller, as the counterexample shows). -/
theorem constant_trace_capacity_amended (c : ℚ) (n : ℕ) (hn : n ≠ 0)
    (bs : ℕ) (tol : ℚ) :
    listMax (List.replicate n c) = c ∧
    find_minimum_capacity (List.replicate n c) bs tol ≤ c := by
  have hne : List.replicate n c ≠ [] := by
    intro h
    have hlen := congrArg List.length h
    simp at hlen
    exact hn hlen
  have hM : listMax (List.replicate n c) = c := by
    have : listMax (List.replicate n c) ∈ List.replicate n c := listMax_mem hne
    exact List.eq_of_mem_replicate this
  exact ⟨hM, le_trans (find_minimum_capacity_le_listMax (List.replicate n c) bs tol hne)
    (le_of_eq hM)⟩

/-- Witness for the amended C3 on the trace `[5, 5, 5]` with
`buffer_symbols = 4`, tolerance `1/100`. -/
theorem constant_trace_capacity_amended_witness :
    listMax (List.replicate 3 (5 : ℚ)) = 5 ∧
    find_minimum_capacity (List.replicate 3 (5 : ℚ)) 4 (1 / 100) ≤ 5 :=
  constant_trace_capacity_amended 5 3 (by decide) 4 (1 / 100)

/-- Counterexample to claim C9: `capacity_to_gbps` rounds to two decimal
places, so for the capacity map `{Link_1: 1}` it returns `0`, while the
exact conversion `1 / 500e-6 / 1e9 = 1/500000` is non-zero. -/
theorem capacity_to_gbps_exact_counterexample :
    capacity_to_gbps [(("Link_1" : String), (1 : ℚ))] = [(("Link_1" : String), (0 : ℚ))] ∧
    (1 : ℚ) / SLOT_DURATION_SECONDS / 1000000000 = 1 / 500000 ∧
    (1 : ℚ) / 500000 ≠ 0 := by
  refine ⟨?_, by norm_num [SLOT_DURATION_SECONDS], by norm_num⟩
  simp only [capacity_to_gbps, List.map_cons, List.map_nil]
  rw [show (1 : ℚ) / SLOT_DURATION_SECONDS / 1000000000 = 1 / 500000 by
    norm_num [SLOT_DURATION_SECONDS]]
  norm_num [pyRound, roundHalfEven, Int.fract, round_eq]

/-- Claim C9 as amended: `capacity_to_gbps` maps each entry `(link, v)` of
the capacity dictionary to the fixed conversion `v / 500e-6 / 1e9`
(equivalently `v / 500000`) rounded to two decimal places. -/
theorem capacity_to_gbps_rounded (cap : List (String × ℚ)) (name : String) (v : ℚ)
    (h : (name, v) ∈ cap) :
    (name, pyRound 2 (v / 500000)) ∈ capacity_to_gbps cap := by
  have hconv : v / SLOT_DURATION_SECONDS / 1000000000 = v / 500000 := by
    rw [SLOT_DURATION_SECONDS]
    ring
  exact List.mem_map.2 ⟨(name, v), h, by rw [hconv]⟩

/-- Witness for the amended C9 on the capacity map `{Link_1: 3}`. -/
theorem capacity_to_gbps_rounded_witness :
    (("Link_1" : String), pyRound 2 ((3 : ℚ) / 500000)) ∈
      capacity_to_gbps [(("Link_1" : String), (3 : ℚ))] :=
  capacity_to_gbps_rounded [(("Link_1" : String), (3 : ℚ))] "Link_1" 3
    (List.mem_singleton.2 rfl)

/-- Claim C10: `find_minimum_capacity` on an empty trace returns `0.0`
without raising, while the public entry point
`estimate_capacity_with_buffer` raises whenever no link-traffic column is
present. -/
theorem find_minimum_capacity_empty_and_entrypoint_error :
    (∀ (bs : ℕ) (tol : ℚ), find_minimum_capacity [] bs tol = 0) ∧
    (∀ (df : TrafficFrame) (bs : ℕ) (tol : ℚ), linkCols df = [] →
      estimate_capacity_with_buffer df bs tol = .error .noLinkColumns) := by
  constructor
  · intro bs tol
    rfl
  · intro df bs tol h
    simp only [estimate_capacity_with_buffer]
    rw [if_pos h]

/-- Witness for C10: the empty trace gives 0, and a frame whose only
column is not a link column makes the entry point raise. -/
theorem find_minimum_capacity_empty_and_entrypoint_error_witness :
    find_minimum_capacity [] 4 (1 / 100) = 0 ∧
    estimate_capacity_with_buffer ⟨[0], [(("slot_id" : String), [5])]⟩ 4 (1 / 100) =
      .error .noLinkColumns :=
  ⟨find_minimum_capacity_empty_and_entrypoint_error.1 4 (1 / 100),
    find_minimum_capacity_empty_and_entrypoint_error.2
      ⟨[0], [(("slot_id" : String), [5])]⟩ 4 (1 / 100) (by decide)⟩

/-- Any integer lower bound of `q` bounds `roundHalfEven q` from below. -/
theorem le_roundHalfEven (b : ℤ) (q : ℚ) (h : (b : ℚ) ≤ q) : b ≤ roundHalfEven q := by
  have hfl : b ≤ ⌊q⌋ := Int.le_floor.2 h
  unfold roundHalfEven
  by_cases ht : Int.fract q = 1 / 2
  · rw [if_pos ht]
    by_cases hd : 2 ∣ ⌊q⌋
    · rw [if_pos hd]; exact hfl
    · rw [if_neg hd]; omega
  · rw [if_neg ht, round_eq]
    exact le_trans hfl (Int.floor_le_floor (by linarith))

/-- Any integer upper bound of `q` bounds `roundHalfEven q` from above. -/
theorem roundHalfEven_le (q : ℚ) (b : ℤ) (h : q ≤ (b : ℚ)) : roundHalfEven q ≤ b := by
  unfold roundHalfEven
  by_cases ht : Int.fract q = 1 / 2
  · rw [if_pos ht]
    have hq : ((⌊q⌋ : ℚ) + 1 / 2) = q := by
      rw [← ht]; exact Int.floor_add_fract q
    have hlt : (⌊q⌋ : ℚ) < (b : ℚ) := by linarith
    have hlt2 : ⌊q⌋ < b := Int.cast_lt.1 hlt
    by_cases hd : 2 ∣ ⌊q⌋
    · rw [if_pos hd]; omega
    · rw [if_neg hd]; omega
  · rw [if_neg ht, round_eq]
    have : ⌊q + 1 / 2⌋ ≤ ⌊(1 : ℚ) / 2 + (b : ℚ)⌋ := Int.floor_le_floor (by linarith)
    rw [Int.floor_add_int] at this
    have h12 : ⌊(1 : ℚ) / 2⌋ = 0 := by norm_num
    omega

/-- `pyRound` maps the unit interval into itself. -/
theorem pyRound_mem_unit (n : ℕ) (q : ℚ) (h0 : 0 ≤ q) (h1 : q ≤ 1) :
    0 ≤ pyRound n q ∧ pyRound n q ≤ 1 := by
  have hpow : (0 : ℚ) < 10 ^ n := by positivity
  have hlow : (0 : ℤ) ≤ roundHalfEven (q * 10 ^ n) :=
    le_roundHalfEven 0 _ (by positivity)
  have hup : roundHalfEven (q * 10 ^ n) ≤ ((10 : ℤ) ^ n) :=
    roundHalfEven_le _ _ (by push_cast; nlinarith)
  constructor
  · unfold pyRound
    apply div_nonneg _ (le_of_lt hpow)
    exact_mod_cast hlow
  · unfold pyRound
    rw [div_le_one hpow]
    calc ((roundHalfEven (q * 10 ^ n) : ℚ)) ≤ (((10 : ℤ) ^ n : ℤ) : ℚ) := by exact_mod_cast hup
    _ = 10 ^ n := by push_cast; ring

/-- The raw correlation is symmetric in its two cells. -/
theorem corrValue_comm (df : List LabeledRecord) (a b : String) :
    corrValue df a b = corrValue df b a := by
  simp only [corrValue]
  rw [Finset.inter_comm, min_comm]

/-- The raw correlation is non-negative. -/
theorem corrValue_nonneg (df : List LabeledRecord) (a b : String) :
    0 ≤ corrValue df a b := by
  simp only [corrValue]
  by_cases h : min (congestedTimestamps df a).card (congestedTimestamps df b).card = 0
  · rw [if_pos h]
  · rw [if_neg h]
    positivity

/-- The raw correlation is at most one: the overlap count never exceeds the
smaller congestion count. -/
theorem corrValue_le_one (df : List LabeledRecord) (a b : String) :
    corrValue df a b ≤ 1 := by
  simp only [corrValue]
  by_cases h : min (congestedTimestamps df a).card (congestedTimestamps df b).card = 0
  · rw [if_pos h]; exact zero_le_one
  · rw [if_neg h]
    have hpos : 0 < min (congestedTimestamps df a).card (congestedTimestamps df b).card :=
      Nat.pos_of_ne_zero h
    rw [div_le_one (by exact_mod_cast hpos)]
    have hcard : ((congestedTimestamps df a) ∩ (congestedTimestamps df b)).card ≤
        min (congestedTimestamps df a).card (congestedTimestamps df b).card :=
      le_min (Finset.card_le_card Finset.inter_subset_left)
        (Finset.card_le_card Finset.inter_subset_right)
    exact_mod_cast hcard

/-- Claim C7: every stored correlation value lies in `[0, 1]`, and the
matrix is symmetric in value: whenever `corr[a][b] = v` is stored, the row
of `b` stores `corr[b][a] = v` as well. -/
theorem correlation_symmetric_unit_range (df : List LabeledRecord)
    (a : String) (row : List (String × ℚ)) (b : String) (v : ℚ)
    (ha : (a, row) ∈ compute_congestion_correlation df) (hb : (b, v) ∈ row) :
    0 ≤ v ∧ v ≤ 1 ∧
      ∃ row2, (b, row2) ∈ compute_congestion_correlation df ∧ (a, v) ∈ row2 := by
  obtain ⟨a', ha', heq⟩ := List.mem_map.1 ha
  rw [Prod.mk.injEq] at heq
  obtain ⟨rfl, hrow⟩ := heq
  subst hrow
  obtain ⟨b', hb', heq2⟩ := List.mem_map.1 hb
  rw [Prod.mk.injEq] at heq2
  obtain ⟨rfl, hv⟩ := heq2
  subst hv
  obtain ⟨hbcell, hbne⟩ := List.mem_filter.1 hb'
  have hab : b' ≠ a' := of_decide_eq_true hbne
  refine ⟨(pyRound_mem_unit 4 _ (corrValue_nonneg df a' b') (corrValue_le_one df a' b')).1,
    (pyRound_mem_unit 4 _ (corrValue_nonneg df a' b') (corrValue_le_one df a' b')).2, ?_⟩
  refine ⟨((cellIds df).filter (fun c => decide (c ≠ b'))).map
    (fun c => (c, pyRound 4 (corrValue df b' c))), List.mem_map.2 ⟨b', hbcell, rfl⟩, ?_⟩
  apply List.mem_map.2
  refine ⟨a', List.mem_filter.2 ⟨ha', decide_eq_true (Ne.symm hab)⟩, ?_⟩
  rw [corrValue_comm df b' a']

/-- Witness for C7 on a two-cell frame with no congested records (the
zero-denominator policy path). -/
theorem correlation_symmetric_unit_range_witness :
    0 ≤ (0 : ℚ) ∧ (0 : ℚ) ≤ 1 ∧
      ∃ row2, (("c2" : String), row2) ∈ compute_congestion_correlation
          [⟨1, "c1", false⟩, ⟨2, "c2", false⟩] ∧ (("c1" : String), (0 : ℚ)) ∈ row2 :=
  correlation_symmetric_unit_range [⟨1, "c1", false⟩, ⟨2, "c2", false⟩]
    "c1" [(("c2" : String), (0 : ℚ))] "c2" 0
    (by
      norm_num [compute_congestion_correlation, cellIds, corrValue,
        congestedTimestamps, pyRound, roundHalfEven, Int.fract, round_eq,
        show (["c1", "c2"] : List String).dedup = ["c1", "c2"] from by decide]
      decide)
    (by norm_num)

/-- An indicator sum over a list that does not contain the index is zero. -/
theorem sum_ite_eq_zero_of_not_mem {β : Type} [DecidableEq β]
    (ls : List β) (b : β) (q : ℚ) (hb : b ∉ ls) :
    (ls.map (fun l => if b = l then q else 0)).sum = 0 := by
  induction ls with
  | nil => rfl
  | cons l ls ih =>
    have hne : b ≠ l := fun h => hb (h ▸ List.mem_cons_self l ls)
    have hnm : b ∉ ls := fun h => hb (List.mem_cons_of_mem l h)
    simp only [List.map_cons, List.sum_cons, if_neg hne, ih hnm, zero_add]

/-- An indicator sum over a duplicate-free list containing the index picks
out exactly the indexed value. -/
theorem sum_ite_eq_of_mem {β : Type} [DecidableEq β]
    (ls : List β) (b : β) (q : ℚ) (hnd : ls.Nodup) (hb : b ∈ ls) :
    (ls.map (fun l => if b = l then q else 0)).sum = q := by
  induction ls with
  | nil => cases hb
  | cons l ls ih =>
    rw [List.nodup_cons] at hnd
    by_cases h : b = l
    · subst h
      simp only [List.map_cons, List.sum_cons, if_true]
      rw [sum_ite_eq_zero_of_not_mem ls b q hnd.1, add_zero]
    · rcases List.mem_cons.1 hb with h1 | h1
      · exact absurd h1 h
      · simp only [List.map_cons, List.sum_cons, if_neg h, ih hnd.2 h1, zero_add]

/-- Partitioning a sum over its fibers: if `ls` lists every value of `f` on
`xs` without duplicates, summing the per-fiber sums reproduces the total. -/
theorem sum_fiber_filter {α β : Type} [DecidableEq β] (f : α → β) (g : α → ℚ)
    (ls : List β) (xs : List α) (hnd : ls.Nodup) (hcov : ∀ x ∈ xs, f x ∈ ls) :
    (ls.map (fun l => ((xs.filter (fun x => decide (f x = l))).map g).sum)).sum =
      (xs.map g).sum := by
  induction xs with
  | nil => simp
  | cons x xs ih =>
    have hcov' : ∀ y ∈ xs, f y ∈ ls := fun y hy => hcov y (List.mem_cons_of_mem x hy)
    have hsplit : ∀ l : β,
        (((x :: xs).filter (fun y => decide (f y = l))).map g).sum =
          (if f x = l then g x else 0) +
            ((xs.filter (fun y => decide (f y = l))).map g).sum := by
      intro l
      by_cases h : f x = l
      · rw [if_pos h]
        simp only [List.filter_cons, decide_eq_true h, if_pos rfl]
        simp [List.map_cons, List.sum_cons]
      · rw [if_neg h]
        simp only [List.filter_cons, decide_eq_false h]
        simp
    calc (ls.map (fun l => (((x :: xs).filter (fun y => decide (f y = l))).map g).sum)).sum
        = (ls.map (fun l => (if f x = l then g x else 0) +
            ((xs.filter (fun y => decide (f y = l))).map g).sum)).sum := by
          congr 1
          exact List.map_congr_left (fun l _ => hsplit l)
      _ = (ls.map (fun l => if f x = l then g x else 0)).sum +
            (ls.map (fun l => ((xs.filter (fun y => decide (f y = l))).map g).sum)).sum :=
          List.sum_map_add
      _ = g x + (xs.map g).sum := by
          rw [sum_ite_eq_of_mem ls (f x) (g x) hnd (hcov x (List.mem_cons_self x xs)),
            ih hcov']
      _ = ((x :: xs).map g).sum := by simp

/-- The link columns are duplicate-free. -/
theorem linkLabels_nodup (recs : List SlotRecord) (topo : List (String × String)) :
    (linkLabels recs topo).Nodup :=
  ((pySort_perm _ _).nodup_iff).2 (List.nodup_dedup _)

/-- Every record's link appears among the link columns. -/
theorem linkOf_mem_linkLabels (recs : List SlotRecord) (topo : List (String × String))
    (r : SlotRecord) (hr : r ∈ recs) :
    linkOf topo r.cell_id ∈ linkLabels recs topo := by
  apply ((pySort_perm _ _).mem_iff).2
  exact List.mem_dedup.2 (List.mem_map.2 ⟨r, hr, rfl⟩)

/-- Claim C8 (conservation): in every row of the aggregated table, the sum
across all link columns equals the total `slot_throughput_bits` of the
records of that slot — cells missing from the topology are counted under
`Unknown_Link`, so no traffic mass is created or lost. -/
theorem link_aggregation_conservation (recs : List SlotRecord)
    (topo : List (String × String)) (s : ℤ) (row : List (String × ℚ))
    (h : (s, row) ∈ aggregate_slot_traffic_by_link recs topo) :
    (row.map (fun p => p.2)).sum =
      ((recs.filter (fun r => decide (r.slot_id = s))).map
        (fun r => r.slot_throughput_bits)).sum := by
  obtain ⟨s', hs', heq⟩ := List.mem_map.1 h
  rw [Prod.mk.injEq] at heq
  obtain ⟨rfl, hrow⟩ := heq
  subst hrow
  rw [List.map_map]
  have hassoc : ((fun p : String × ℚ => p.2) ∘ fun l =>
      (l, linkTrafficAt recs topo s' l)) = fun l => linkTrafficAt recs topo s' l := rfl
  rw [hassoc]
  have hfib := sum_fiber_filter (fun r : SlotRecord => linkOf topo r.cell_id)
    (fun r : SlotRecord => r.slot_throughput_bits) (linkLabels recs topo)
    (recs.filter (fun r => decide (r.slot_id = s')))
    (linkLabels_nodup recs topo)
    (fun x hx => linkOf_mem_linkLabels recs topo x (List.mem_of_mem_filter hx))
  rw [← hfib]
  congr 1
  apply List.map_congr_left
  intro l _
  simp only [linkTrafficAt]
  congr 1
  rw [List.filter_filter]
  congr 1
  apply List.filter_congr
  intro r _
  rw [Bool.and_comm]

/-- Witness for C8: a three-record input where one cell is missing from the
topology and lands in the `Unknown_Link` bucket; the slot-0 row sums to the
slot-0 total. -/
theorem link_aggregation_conservation_witness :
    ([(("Link_1" : String), (5 : ℚ)), (("Unknown_Link" : String), (7 : ℚ))].map
      (fun p => p.2)).sum =
      (([⟨0, "c1", 5⟩, ⟨0, "c2", 7⟩, (⟨1, "c1", 3⟩ : SlotRecord)].filter
        (fun r => decide (r.slot_id = 0))).map (fun r => r.slot_throughput_bits)).sum :=
  link_aggregation_conservation
    [⟨0, "c1", 5⟩, ⟨0, "c2", 7⟩, ⟨1, "c1", 3⟩] [("c1", "Link_1")] 0
    [(("Link_1" : String), (5 : ℚ)), (("Unknown_Link" : String), (7 : ℚ))]
    (by
      have hlab : linkLabels [⟨0, "c1", 5⟩, ⟨0, "c2", 7⟩, ⟨1, "c1", 3⟩]
          [("c1", "Link_1")] = ["Link_1", "Unknown_Link"] := by decide
      have hslots : slotIdsOf [⟨0, "c1", 5⟩, ⟨0, "c2", 7⟩, ⟨1, "c1", 3⟩] = [0, 1] := by
        decide
      have hlink1 : linkOf [("c1", "Link_1")] "c1" = "Link_1" := rfl
      have hlink2 : linkOf [("c1", "Link_1")] "c2" = "Unknown_Link" := rfl
      have hd1 : decide (("Link_1" : String) = "Link_1") = true := by decide
      have hd2 : decide (("Unknown_Link" : String) = "Link_1") = false := by decide
      have hd3 : decide (("Link_1" : String) = "Unknown_Link") = false := by decide
      have hd4 : decide (("Unknown_Link" : String) = "Unknown_Link") = true := by decide
      norm_num [aggregate_slot_traffic_by_link, hslots, hlab, linkTrafficAt,
        hlink1, hlink2, hd1, hd2, hd3, hd4])

/-- The visited set only grows during the BFS. -/
theorem bfsAux_subset (M : List (String × List (String × ℚ))) (t : ℚ)
    (q : List String) (v : Finset String) (comp : List String)
    (hq : ∀ x ∈ q, x ∈ (allCells M).toFinset) :
    v ⊆ (bfsAux M t q v comp hq).1 := by
  induction q, v, comp, hq using bfsAux.induct M t with
  | case1 v comp hq _ =>
    rw [bfsAux]
  | case2 c rest v comp hq hc _ ih =>
    rw [bfsAux]
    simp only [dif_pos hc]
    exact ih
  | case3 c rest v comp hq hc _ ih =>
    rw [bfsAux]
    simp only [dif_neg hc]
    exact le_trans (Finset.subset_insert c v) ih

/-- Every queue member ends up visited. -/
theorem bfsAux_queue_mem (M : List (String × List (String × ℚ))) (t : ℚ)
    (q : List String) (v : Finset String) (comp : List String)
    (hq : ∀ x ∈ q, x ∈ (allCells M).toFinset) :
    ∀ x ∈ q, x ∈ (bfsAux M t q v comp hq).1 := by
  induction q, v, comp, hq using bfsAux.induct M t with
  | case1 v comp hq _ =>
    intro x hx
    cases hx
  | case2 c rest v comp hq hc _ ih =>
    rw [bfsAux]
    simp only [dif_pos hc]
    intro x hx
    rcases List.mem_cons.1 hx with h | h
    · subst h
      exact bfsAux_subset M t rest v comp _ hc
    · exact ih x h
  | case3 c rest v comp hq hc _ ih =>
    rw [bfsAux]
    simp only [dif_neg hc]
    intro x hx
    rcases List.mem_cons.1 hx with h | h
    · subst h
      exact bfsAux_subset M t _ _ _ _ (Finset.mem_insert_self x v)
    · exact ih x (List.mem_append_left _ h)

/-- The threshold graph is symmetric. -/
theorem edgeB_comm (M : List (String × List (String × ℚ))) (t : ℚ) (a b : String) :
    edgeB M t a b = edgeB M t b a := by
  simp only [edgeB]
  exact Bool.or_comm _ _

/-- Both endpoints of an edge are cells of the matrix. -/
theorem edgeB_mem_allCells (M : List (String × List (String × ℚ))) (t : ℚ)
    (a b : String) (h : edgeB M t a b = true) : b ∈ allCells M := by
  simp only [edgeB, Bool.or_eq_true, List.any_eq_true, Bool.and_eq_true,
    decide_eq_true_eq] at h
  apply List.mem_dedup.2
  rcases h with ⟨p, hp, hpa, q, hq, hqb, _⟩ | ⟨p, hp, hpb, _, _, _, _⟩
  · exact List.mem_append_right _
      (List.mem_flatMap.2 ⟨p, hp, List.mem_map.2 ⟨q, hq, hqb⟩⟩)
  · exact List.mem_append_left _ (List.mem_map.2 ⟨p, hp, hpb⟩)

/-- Edges are into the neighbour list. -/
theorem mem_neighbors_of_edgeB (M : List (String × List (String × ℚ))) (t : ℚ)
    (a b : String) (h : edgeB M t a b = true) : b ∈ neighbors M t a :=
  List.mem_filter.2 ⟨edgeB_mem_allCells M t a b h, h⟩

/-- The final visited set is closed under edges out of freshly visited
cells: a neighbour of any cell visited during this call is itself visited
at the end. -/
theorem bfsAux_closed (M : List (String × List (String × ℚ))) (t : ℚ)
    (q : List String) (v : Finset String) (comp : List String)
    (hq : ∀ x ∈ q, x ∈ (allCells M).toFinset) :
    ∀ z ∈ (bfsAux M t q v comp hq).1, z ∉ v →
      ∀ y, edgeB M t z y = true → y ∈ (bfsAux M t q v comp hq).1 := by
  induction q, v, comp, hq using bfsAux.induct M t with
  | case1 v comp hq _ =>
    rw [bfsAux]
    intro z hz hznv
    exact absurd hz hznv
  | case2 c rest v comp hq hc _ ih =>
    rw [bfsAux]
    simp only [dif_pos hc]
    exact ih
  | case3 c rest v comp hq hc _ ih =>
    rw [bfsAux]
    simp only [dif_neg hc]
    intro z hz hznv y hy
    by_cases hzc : z = c
    · subst hzc
      by_cases hyv : y ∈ insert z v
      · exact bfsAux_subset M t _ _ _ _ hyv
      · apply bfsAux_queue_mem M t _ _ _ _ y
        apply List.mem_append_right
        exact List.mem_filter.2 ⟨mem_neighbors_of_edgeB M t z y hy, decide_eq_true hyv⟩
    · apply ih z hz _ y hy
      intro hmem
      rcases Finset.mem_insert.1 hmem with h | h
      · exact hzc h
      · exact hznv h

/-- Everything the BFS visits is either previously visited or reachable
from a queue entry point. -/
theorem bfsAux_sound (M : List (String × List (String × ℚ))) (t : ℚ) (s : String)
    (q : List String) (v : Finset String) (comp : List String)
    (hq : ∀ x ∈ q, x ∈ (allCells M).toFinset)
    (hs : ∀ x ∈ q, x ∈ v ∨ Relation.ReflTransGen (fun a b => edgeB M t a b = true) s x) :
    ∀ x ∈ (bfsAux M t q v comp hq).1,
      x ∈ v ∨ Relation.ReflTransGen (fun a b => edgeB M t a b = true) s x := by
  induction q, v, comp, hq using bfsAux.induct M t with
  | case1 v comp hq _ =>
    rw [bfsAux]
    intro x hx
    exact Or.inl hx
  | case2 c rest v comp hq hc _ ih =>
    rw [bfsAux]
    simp only [dif_pos hc]
    exact ih (fun x hx => hs x (List.mem_cons_of_mem c hx))
  | case3 c rest v comp hq hc _ ih =>
    rw [bfsAux]
    simp only [dif_neg hc]
    have hreachc : Relation.ReflTransGen (fun a b => edgeB M t a b = true) s c := by
      rcases hs c (List.mem_cons_self c rest) with h | h
      · exact absurd h hc
      · exact h
    intro x hx
    have hstep := ih (fun y hy => by
      rcases List.mem_append.1 hy with h | h
      · rcases hs y (List.mem_cons_of_mem c h) with h1 | h1
        · exact Or.inl (Finset.mem_insert_of_mem h1)
        · exact Or.inr h1
      · refine Or.inr (Relation.ReflTransGen.tail hreachc ?_)
        exact (List.mem_filter.1 (List.mem_of_mem_filter h)).2) x hx
    rcases hstep with h | h
    · rcases Finset.mem_insert.1 h with h1 | h1
      · subst h1
        exact Or.inr hreachc
      · exact Or.inl h1
    · exact Or.inr h

/-- The component list built by the BFS collects exactly the freshly
visited cells (given that the accumulator is already visited). -/
theorem bfsAux_comp_spec (M : List (String × List (String × ℚ))) (t : ℚ)
    (q : List String) (v : Finset String) (comp : List String)
    (hq : ∀ x ∈ q, x ∈ (allCells M).toFinset) (hcv : ∀ x ∈ comp, x ∈ v) :
    ∀ x, x ∈ (bfsAux M t q v comp hq).2 ↔
      (x ∈ comp ∨ (x ∈ (bfsAux M t q v comp hq).1 ∧ x ∉ v)) := by
  induction q, v, comp, hq using bfsAux.induct M t with
  | case1 v comp hq _ =>
    rw [bfsAux]
    intro x
    constructor
    · exact fun h => Or.inl h
    · rintro (h | ⟨h1, h2⟩)
      · exact h
      · exact absurd h1 h2
  | case2 c rest v comp hq hc _ ih =>
    rw [bfsAux]
    simp only [dif_pos hc]
    exact ih hcv
  | case3 c rest v comp hq hc _ ih =>
    rw [bfsAux]
    simp only [dif_neg hc]
    have hcv' : ∀ x ∈ comp ++ [c], x ∈ insert c v := by
      intro x hx
      rcases List.mem_append.1 hx with h | h
      · exact Finset.mem_insert_of_mem (hcv x h)
      · rw [List.mem_singleton.1 h]
        exact Finset.mem_insert_self c v
    intro x
    rw [ih hcv' x]
    constructor
    · rintro (h | ⟨h1, h2⟩)
      · rcases List.mem_append.1 h with h3 | h3
        · exact Or.inl h3
        · refine Or.inr ⟨?_, ?_⟩
          · rw [List.mem_singleton.1 h3]
            exact bfsAux_subset M t _ _ _ _ (Finset.mem_insert_self c v)
          · rw [List.mem_singleton.1 h3]
            exact hc
      · refine Or.inr ⟨h1, fun hxv => h2 (Finset.mem_insert_of_mem hxv)⟩
    · rintro (h | ⟨h1, h2⟩)
      · exact Or.inl (List.mem_append_left _ h)
      · by_cases hxc : x = c
        · subst hxc
          exact Or.inl (List.mem_append_right _ (List.mem_singleton.2 rfl))
        · refine Or.inr ⟨h1, fun hmem => ?_⟩
          rcases Finset.mem_insert.1 hmem with h3 | h3
          · exact hxc h3
          · exact h2 h3

/-- The component list built by the BFS has no duplicates. -/
theorem bfsAux_comp_nodup (M : List (String × List (String × ℚ))) (t : ℚ)
    (q : List String) (v : Finset String) (comp : List String)
    (hq : ∀ x ∈ q, x ∈ (allCells M).toFinset) (hcv : ∀ x ∈ comp, x ∈ v)
    (hnd : comp.Nodup) : (bfsAux M t q v comp hq).2.Nodup := by
  induction q, v, comp, hq using bfsAux.induct M t with
  | case1 v comp hq _ =>
    rw [bfsAux]
    exact hnd
  | case2 c rest v comp hq hc _ ih =>
    rw [bfsAux]
    simp only [dif_pos hc]
    exact ih hcv hnd
  | case3 c rest v comp hq hc _ ih =>
    rw [bfsAux]
    simp only [dif_neg hc]
    apply ih
    · intro x hx
      rcases List.mem_append.1 hx with h | h
      · exact Finset.mem_insert_of_mem (hcv x h)
      · rw [List.mem_singleton.1 h]
        exact Finset.mem_insert_self c v
    · rw [List.nodup_append]
      refine ⟨hnd, List.nodup_singleton c, ?_⟩
      intro x hx hxc
      rw [List.mem_singleton.1 hxc] at hx
      exact hc (hcv c hx)

/-- One BFS call from a fresh cell `c`, against a visited set that is
closed under edges, computes exactly the reachability class of `c`: its
component is the set of cells connected to `c` in the threshold graph, it
has no duplicates and is disjoint from the previous visited set, and the
new visited set is the old one plus the component and is again closed. -/
theorem bfs_component_reach (M : List (String × List (String × ℚ))) (t : ℚ)
    (v : Finset String) (c : String)
    (hc : c ∈ (allCells M).toFinset) (hcv : c ∉ v)
    (hclosed : ∀ z ∈ v, ∀ y, edgeB M t z y = true → y ∈ v)
    (hq : ∀ x ∈ [c], x ∈ (allCells M).toFinset) :
    (∀ x, x ∈ (bfsAux M t [c] v [] hq).2 ↔
      Relation.ReflTransGen (fun a b => edgeB M t a b = true) c x) ∧
    (bfsAux M t [c] v [] hq).2.Nodup ∧
    (∀ x ∈ (bfsAux M t [c] v [] hq).2, x ∉ v) ∧
    (∀ z ∈ (bfsAux M t [c] v [] hq).1, ∀ y, edgeB M t z y = true →
      y ∈ (bfsAux M t [c] v [] hq).1) ∧
    (∀ x, x ∈ (bfsAux M t [c] v [] hq).1 ↔ (x ∈ v ∨ x ∈ (bfsAux M t [c] v [] hq).2)) := by
  have hspec := bfsAux_comp_spec M t [c] v [] hq (fun x hx => absurd hx (List.not_mem_nil x))
  have hsub := bfsAux_subset M t [c] v [] hq
  have hreach_of_mem1 : ∀ x ∈ (bfsAux M t [c] v [] hq).1, x ∈ v ∨
      Relation.ReflTransGen (fun a b => edgeB M t a b = true) c x :=
    bfsAux_sound M t c [c] v [] hq
      (fun x hx => List.mem_singleton.1 hx ▸ Or.inr Relation.ReflTransGen.refl)
  have hclosed1 : ∀ z ∈ (bfsAux M t [c] v [] hq).1, ∀ y, edgeB M t z y = true →
      y ∈ (bfsAux M t [c] v [] hq).1 := by
    intro z hz y hy
    by_cases hzv : z ∈ v
    · exact hsub (hclosed z hzv y hy)
    · exact bfsAux_closed M t [c] v [] hq z hz hzv y hy
  have hinv : ∀ x, Relation.ReflTransGen (fun a b => edgeB M t a b = true) c x →
      x ∈ (bfsAux M t [c] v [] hq).1 ∧ x ∉ v := by
    intro x hx
    induction hx with
    | refl =>
      exact ⟨bfsAux_queue_mem M t [c] v [] hq c (List.mem_singleton.2 rfl), hcv⟩
    | tail _ hstep ih =>
      rename_i b y _
      refine ⟨hclosed1 b ih.1 y hstep, fun hyv => ?_⟩
      have hbv : b ∈ v := hclosed y hyv b (by rw [edgeB_comm]; exact hstep)
      exact ih.2 hbv
  have hiff : ∀ x, x ∈ (bfsAux M t [c] v [] hq).2 ↔
      Relation.ReflTransGen (fun a b => edgeB M t a b = true) c x := by
    intro x
    rw [hspec x]
    constructor
    · rintro (h | ⟨h1, h2⟩)
      · exact absurd h (List.not_mem_nil x)
      · rcases hreach_of_mem1 x h1 with h3 | h3
        · exact absurd h3 h2
        · exact h3
    · intro h
      exact Or.inr (hinv x h)
  refine ⟨hiff, bfsAux_comp_nodup M t [c] v [] hq
    (fun x hx => absurd hx (List.not_mem_nil x)) List.nodup_nil, ?_, hclosed1, ?_⟩
  · intro x hx
    rcases (hspec x).1 hx with h | ⟨_, h2⟩
    · exact absurd h (List.not_mem_nil x)
    · exact h2
  · intro x
    constructor
    · intro h
      by_cases hxv : x ∈ v
      · exact Or.inl hxv
      · exact Or.inr ((hspec x).2 (Or.inr ⟨h, hxv⟩))
    · rintro (h | h)
      · exact hsub h
      · rcases (hspec x).1 h with h1 | ⟨h1, _⟩
        · exact absurd h1 (List.not_mem_nil x)
        · exact h1

/-- The outer loop of `infer_topology` produces components that are
duplicate-free, non-empty, disjoint from the initial visited set and from
each other, that are exactly reachability classes of the threshold graph,
and that (together with the initial visited set) cover all scanned cells. -/
theorem buildComponents_spec (M : List (String × List (String × ℚ))) (t : ℚ)
    (cells : List String) (v : Finset String)
    (hcells : ∀ x ∈ cells, x ∈ (allCells M).toFinset)
    (hclosed : ∀ z ∈ v, ∀ y, edgeB M t z y = true → y ∈ v) :
    (∀ comp ∈ buildComponents M t cells v hcells, comp.Nodup ∧ comp ≠ [] ∧
      (∀ x ∈ comp, x ∉ v) ∧
      (∀ x ∈ comp, ∀ y, y ∈ comp ↔
        Relation.ReflTransGen (fun a b => edgeB M t a b = true) x y)) ∧
    (∀ x ∈ cells, x ∈ v ∨ ∃ comp ∈ buildComponents M t cells v hcells, x ∈ comp) ∧
    (buildComponents M t cells v hcells).Pairwise (fun c1 c2 => ∀ x ∈ c1, x ∉ c2) := by
  have hsymmG : ∀ a b, edgeB M t a b = true → edgeB M t b a = true := by
    intro a b h
    rw [edgeB_comm]
    exact h
  induction cells generalizing v with
  | nil =>
    refine ⟨?_, ?_, ?_⟩
    · intro comp hcomp
      rw [buildComponents] at hcomp
      cases hcomp
    · intro x hx
      cases hx
    · rw [buildComponents]
      exact List.Pairwise.nil
  | cons c rest ih =>
    by_cases hcv : c ∈ v
    · have heq : buildComponents M t (c :: rest) v hcells =
          buildComponents M t rest v (fun x hx => hcells x (List.mem_cons_of_mem c hx)) := by
        rw [buildComponents]
        exact if_pos hcv
      obtain ⟨h1, h2, h3⟩ := ih v (fun x hx => hcells x (List.mem_cons_of_mem c hx)) hclosed
      rw [heq]
      refine ⟨h1, ?_, h3⟩
      intro x hx
      rcases List.mem_cons.1 hx with h | h
      · exact Or.inl (h ▸ hcv)
      · exact h2 x h
    · have hcA : c ∈ (allCells M).toFinset := hcells c (List.mem_cons_self c rest)
      have hq1 : ∀ x ∈ [c], x ∈ (allCells M).toFinset :=
        fun x hx => List.mem_singleton.1 hx ▸ hcA
      obtain ⟨hriff, hrnodup, hrnotv, hrclosed, hr1iff⟩ :=
        bfs_component_reach M t v c hcA hcv hclosed hq1
      have heq : buildComponents M t (c :: rest) v hcells =
          (bfsAux M t [c] v [] hq1).2 ::
            buildComponents M t rest (bfsAux M t [c] v [] hq1).1
              (fun x hx => hcells x (List.mem_cons_of_mem c hx)) := by
        rw [buildComponents]
        rw [if_neg hcv]
      obtain ⟨h1, h2, h3⟩ := ih (bfsAux M t [c] v [] hq1).1
        (fun x hx => hcells x (List.mem_cons_of_mem c hx)) hrclosed
      have hcmem : c ∈ (bfsAux M t [c] v [] hq1).2 :=
        (hriff c).2 Relation.ReflTransGen.refl
      have hreachsymm : ∀ x y,
          Relation.ReflTransGen (fun a b => edgeB M t a b = true) x y →
          Relation.ReflTransGen (fun a b => edgeB M t a b = true) y x :=
        fun x y h => Relation.ReflTransGen.symmetric (fun a b hab => hsymmG a b hab) h
      rw [heq]
      refine ⟨?_, ?_, ?_⟩
      · intro comp hcomp
        rcases List.mem_cons.1 hcomp with h | h
        · subst h
          have hne : (bfsAux M t [c] v [] hq1).2 ≠ [] := by
            intro hemp
            rw [hemp] at hcmem
            cases hcmem
          refine ⟨hrnodup, hne, hrnotv, ?_⟩
          intro x hx y
          have hcx := (hriff x).1 hx
          constructor
          · intro h
            exact Relation.ReflTransGen.trans (hreachsymm c x hcx) ((hriff y).1 h)
          · intro h
            exact (hriff y).2 (Relation.ReflTransGen.trans hcx h)
        · obtain ⟨ha, hb, hcnv, hd⟩ := h1 comp h
          refine ⟨ha, hb, ?_, hd⟩
          intro x hx hxv
          exact hcnv x hx (bfsAux_subset M t [c] v [] hq1 hxv)
      · intro x hx
        rcases List.mem_cons.1 hx with h | h
        · exact Or.inr ⟨(bfsAux M t [c] v [] hq1).2, List.mem_cons_self _ _, h ▸ hcmem⟩
        · rcases h2 x h with h3 | ⟨comp, hcomp, hxc⟩
          · rcases (hr1iff x).1 h3 with h4 | h4
            · exact Or.inl h4
            · exact Or.inr ⟨(bfsAux M t [c] v [] hq1).2, List.mem_cons_self _ _, h4⟩
          · exact Or.inr ⟨comp, List.mem_cons_of_mem _ hcomp, hxc⟩
      · rw [List.pairwise_cons]
        refine ⟨?_, h3⟩
        intro comp hcomp x hx hxcomp
        obtain ⟨_, _, hcnv, _⟩ := h1 comp hcomp
        exact hcnv x hxcomp ((hr1iff x).2 (Or.inr hx))

/-- Evaluating one more digit at the end. -/
theorem evalDigits_append (l : List Char) (ch : Char) :
    evalDigits (l ++ [ch]) = 10 * evalDigits l + digitVal ch := by
  simp [evalDigits, List.foldl_append]

/-- `digitChar` and `digitVal` cancel on decimal digits. -/
theorem digitVal_digitChar (d : ℕ) (h : d < 10) : digitVal (Nat.digitChar d) = d := by
  interval_cases d <;> rfl

/-- The accumulator of `Nat.toDigitsCore` is a plain suffix. -/
theorem toDigitsCore_acc (f : ℕ) : ∀ (n : ℕ) (acc : List Char),
    Nat.toDigitsCore 10 f n acc = Nat.toDigitsCore 10 f n [] ++ acc := by
  induction f with
  | zero =>
    intro n acc
    simp [Nat.toDigitsCore]
  | succ f ih =>
    intro n acc
    simp only [Nat.toDigitsCore]
    by_cases h : n / 10 = 0
    · rw [if_pos h, if_pos h]
      rfl
    · rw [if_neg h, if_neg h, ih (n / 10) (Nat.digitChar (n % 10) :: acc),
        ih (n / 10) [Nat.digitChar (n % 10)], List.append_assoc]
      rfl

/-- With adequate fuel, `Nat.toDigitsCore` renders exactly its input. -/
theorem evalDigits_toDigitsCore : ∀ (f n : ℕ), n < f →
    evalDigits (Nat.toDigitsCore 10 f n []) = n := by
  intro f
  induction f with
  | zero =>
    intro n h
    exact absurd h (Nat.not_lt_zero n)
  | succ f ih =>
    intro n h
    simp only [Nat.toDigitsCore]
    by_cases h0 : n / 10 = 0
    · rw [if_pos h0]
      have hn10 : n < 10 := by omega
      have hmod : n % 10 = n := Nat.mod_eq_of_lt hn10
      show 10 * 0 + digitVal (Nat.digitChar (n % 10)) = n
      rw [hmod, digitVal_digitChar n hn10]
      omega
    · rw [if_neg h0]
      rw [toDigitsCore_acc f (n / 10) [Nat.digitChar (n % 10)], evalDigits_append]
      have h1 : n / 10 < f := by omega
      rw [ih (n / 10) h1, digitVal_digitChar (n % 10) (Nat.mod_lt n (by norm_num))]
      omega

/-- Decimal rendering of naturals is injective (at the character level). -/
theorem nat_repr_data_inj (m n : ℕ) (h : (Nat.repr m).data = (Nat.repr n).data) :
    m = n := by
  have hm : (Nat.repr m).data = Nat.toDigitsCore 10 (m + 1) m [] := rfl
  have hn : (Nat.repr n).data = Nat.toDigitsCore 10 (n + 1) n [] := rfl
  calc m = evalDigits (Nat.toDigitsCore 10 (m + 1) m []) :=
        (evalDigits_toDigitsCore (m + 1) m (Nat.lt_succ_self m)).symm
    _ = evalDigits (Nat.toDigitsCore 10 (n + 1) n []) := by rw [← hm, h, hn]
    _ = n := evalDigits_toDigitsCore (n + 1) n (Nat.lt_succ_self n)

/-- The link labels `Link_1`, `Link_2`, ... are pairwise distinct. -/
theorem linkLabelFor_injective (i j : ℕ) (h : linkLabelFor i = linkLabelFor j) :
    i = j := by
  unfold linkLabelFor at h
  have hdata := congrArg String.data h
  rw [String.data_append, String.data_append] at hdata
  have hcancel := List.append_cancel_left hdata
  have := nat_repr_data_inj (i + 1) (j + 1) hcancel
  omega

/-- Membership in the label dictionary: `(c, l)` is present exactly when
`c` lies in the component at some position `n` and `l` is that position's
label. -/
theorem labelComponents_mem_iff (comps : List (List String)) :
    ∀ (i : ℕ) (c l : String), (c, l) ∈ labelComponents i comps ↔
      ∃ n comp, comps[n]? = some comp ∧ c ∈ comp ∧ l = linkLabelFor (i + n) := by
  induction comps with
  | nil =>
    intro i c l
    simp [labelComponents]
  | cons comp rest ih =>
    intro i c l
    simp only [labelComponents, List.mem_append, List.mem_map]
    constructor
    · rintro (⟨cell, hcell, heq⟩ | h)
      · rw [Prod.mk.injEq] at heq
        refine ⟨0, comp, by simp, heq.1 ▸ hcell, ?_⟩
        rw [← heq.2]
        congr 1
      · obtain ⟨n, comp', hget, hc, hl⟩ := (ih (i + 1) c l).1 h
        exact ⟨n + 1, comp', by simpa using hget, hc, by rw [hl]; congr 1; omega⟩
    · rintro ⟨n, comp', hget, hc, hl⟩
      cases n with
      | zero =>
        left
        rw [List.getElem?_cons_zero, Option.some.injEq] at hget
        refine ⟨c, ?_, ?_⟩
        · rw [← hget] at hc
          exact hc
        · rw [hl]
          congr 1
      | succ n =>
        right
        apply (ih (i + 1) c l).2
        rw [List.getElem?_cons_succ] at hget
        exact ⟨n, comp', hget, hc, by rw [hl]; congr 1; omega⟩

/-- The keys of the label dictionary, in order, are the concatenation of
the components. -/
theorem labelComponents_keys (comps : List (List String)) :
    ∀ i : ℕ, (labelComponents i comps).map Prod.fst = comps.flatten := by
  induction comps with
  | nil =>
    intro i
    rfl
  | cons comp rest ih =>
    intro i
    simp only [labelComponents, List.map_append, List.map_map, List.flatten_cons,
      ih (i + 1)]
    congr 1
    rw [show (Prod.fst ∘ fun cell : String => (cell, linkLabelFor i)) = id from rfl,
      List.map_id]

/-- Association-list lookup returns the stored value of a present key when
the keys are duplicate-free. -/
theorem lookup_eq_some_of_mem {β : Type} (l : List (String × β)) (k : String) (v : β)
    (hnd : (l.map Prod.fst).Nodup) (hm : (k, v) ∈ l) : l.lookup k = some v := by
  induction l with
  | nil => cases hm
  | cons p rest ih =>
    obtain ⟨k', v'⟩ := p
    rw [List.map_cons, List.nodup_cons] at hnd
    rcases List.mem_cons.1 hm with h | h
    · rw [Prod.mk.injEq] at h
      obtain ⟨rfl, rfl⟩ := h
      simp [List.lookup]
    · by_cases hk : k = k'
      · exfalso
        subst hk
        exact hnd.1 (List.mem_map.2 ⟨(k, v), h, rfl⟩)
      · have hbeq : (k == k') = false := beq_eq_false_iff_ne.2 hk
        simp only [List.lookup, hbeq]
        exact ih hnd.2 h

/-- In a pairwise-disjoint component list, a cell determines its position. -/
theorem components_position_unique (comps : List (List String))
    (hpair : comps.Pairwise (fun c1 c2 => ∀ x ∈ c1, x ∉ c2)) (c : String) :
    ∀ (n1 n2 : ℕ) (comp1 comp2 : List String),
      comps[n1]? = some comp1 → comps[n2]? = some comp2 →
      c ∈ comp1 → c ∈ comp2 → n1 = n2 := by
  have hpg := List.pairwise_iff_getElem.1 hpair
  intro n1 n2 comp1 comp2 h1 h2 hc1 hc2
  obtain ⟨hb1, he1⟩ := List.getElem?_eq_some.1 h1
  obtain ⟨hb2, he2⟩ := List.getElem?_eq_some.1 h2
  by_contra hne
  rcases Nat.lt_or_ge n1 n2 with hlt | hge
  · have hdisj := hpg n1 n2 hb1 hb2 hlt
    rw [he1, he2] at hdisj
    exact hdisj c hc1 hc2
  · have hlt2 : n2 < n1 := by omega
    have hdisj := hpg n2 n1 hb2 hb1 hlt2
    rw [he1, he2] at hdisj
    exact hdisj c hc2 hc1

/-- Claim C6: for every correlation matrix and threshold, `infer_topology`
returns a total partition — every cell id appearing in the matrix is mapped
to exactly one link label — and two cells receive the same label exactly
when they are joined by a path of pairs whose correlation is at least the
threshold. -/
theorem infer_topology_partition_reachability
    (M : List (String × List (String × ℚ))) (t : ℚ) :
    (∀ c ∈ allCells M, ∃! l, (c, l) ∈ infer_topology M t) ∧
    (∀ c1 ∈ allCells M, ∀ c2 ∈ allCells M,
      ((infer_topology M t).lookup c1 = (infer_topology M t).lookup c2 ↔
        Relation.ReflTransGen (fun a b => edgeB M t a b = true) c1 c2)) := by
  obtain ⟨hall, htot, hpair⟩ := buildComponents_spec M t (allCells M) ∅
    (fun x hx => List.mem_toFinset.2 hx)
    (fun z hz => absurd hz (Finset.not_mem_empty z))
  set comps0 := buildComponents M t (allCells M) ∅ (fun x hx => List.mem_toFinset.2 hx)
    with hcomps0
  set sorted := pySort compLe comps0 with hsortedDef
  have hperm : sorted.Perm comps0 := pySort_perm compLe comps0
  have htopo : infer_topology M t = labelComponents 0 sorted := rfl
  have hallS : ∀ comp ∈ sorted, comp.Nodup ∧ comp ≠ [] ∧
      (∀ x ∈ comp, x ∉ (∅ : Finset String)) ∧
      (∀ x ∈ comp, ∀ y, y ∈ comp ↔
        Relation.ReflTransGen (fun a b => edgeB M t a b = true) x y) :=
    fun comp hc => hall comp (hperm.subset hc)
  have htotS : ∀ x ∈ allCells M, ∃ comp ∈ sorted, x ∈ comp := by
    intro x hx
    rcases htot x hx with h | ⟨comp, hcomp, hxc⟩
    · exact absurd h (Finset.not_mem_empty x)
    · exact ⟨comp, (hperm.mem_iff).2 hcomp, hxc⟩
  have hpairS : sorted.Pairwise (fun c1 c2 => ∀ x ∈ c1, x ∉ c2) :=
    (List.Perm.pairwise_iff (fun h x hx2 hx1 => h x hx1 hx2) hperm).2 hpair
  have hkeys : ((labelComponents 0 sorted).map Prod.fst).Nodup := by
    rw [labelComponents_keys sorted 0]
    refine List.nodup_flatten.2 ⟨fun l hl => (hallS l hl).1, ?_⟩
    exact hpairS.imp (fun h a ha hb => h a ha hb)
  have hlook : ∀ (c : String) (n : ℕ) (comp : List String),
      sorted[n]? = some comp → c ∈ comp →
      (labelComponents 0 sorted).lookup c = some (linkLabelFor n) := by
    intro c n comp hget hc
    apply lookup_eq_some_of_mem _ _ _ hkeys
    apply (labelComponents_mem_iff sorted 0 c (linkLabelFor n)).2
    refine ⟨n, comp, hget, hc, ?_⟩
    congr 1
    omega
  have hposunique := components_position_unique sorted hpairS
  have hpos : ∀ c ∈ allCells M, ∃ (n : ℕ) (comp : List String),
      sorted[n]? = some comp ∧ c ∈ comp := by
    intro c hc
    obtain ⟨comp, hcomp, hccomp⟩ := htotS c hc
    obtain ⟨n, hn⟩ := List.getElem?_of_mem hcomp
    exact ⟨n, comp, hn, hccomp⟩
  constructor
  · intro c hc
    obtain ⟨n, comp, hget, hccomp⟩ := hpos c hc
    refine ⟨linkLabelFor n, ?_, ?_⟩
    · rw [htopo]
      apply (labelComponents_mem_iff sorted 0 c (linkLabelFor n)).2
      refine ⟨n, comp, hget, hccomp, ?_⟩
      congr 1
      omega
    · intro l' hl'
      rw [htopo] at hl'
      obtain ⟨n', comp', hget', hc', hl'eq⟩ :=
        (labelComponents_mem_iff sorted 0 c l').1 hl'
      have hnn : n' = n := hposunique c n' n comp' comp hget' hget hc' hccomp
      rw [hl'eq, hnn]
      congr 1
      omega
  · intro c1 hc1 c2 hc2
    obtain ⟨n1, comp1, hget1, hcc1⟩ := hpos c1 hc1
    obtain ⟨n2, comp2, hget2, hcc2⟩ := hpos c2 hc2
    have hmem1 : comp1 ∈ sorted := by
      obtain ⟨hb, he⟩ := List.getElem?_eq_some.1 hget1
      exact he ▸ List.getElem_mem hb
    obtain ⟨_, _, _, hriff⟩ := hallS comp1 hmem1
    have hl1 : (infer_topology M t).lookup c1 = some (linkLabelFor n1) := by
      rw [htopo]
      exact hlook c1 n1 comp1 hget1 hcc1
    have hl2 : (infer_topology M t).lookup c2 = some (linkLabelFor n2) := by
      rw [htopo]
      exact hlook c2 n2 comp2 hget2 hcc2
    rw [hl1, hl2]
    constructor
    · intro heq
      have hn : n1 = n2 := linkLabelFor_injective n1 n2 (Option.some.inj heq)
      subst hn
      rw [hget1] at hget2
      have hcompeq : comp1 = comp2 := Option.some.inj hget2
      exact (hriff c1 hcc1 c2).1 (hcompeq ▸ hcc2)
    · intro hreach
      have hc2in1 : c2 ∈ comp1 := (hriff c1 hcc1 c2).2 hreach
      have hnn : n1 = n2 := hposunique c2 n1 n2 comp1 comp2 hget1 hget2 hc2in1 hcc2
      rw [hnn]

/-- Witness for C6 on the example matrix: `cell_1` has exactly one label,
and `cell_1` and `cell_3` receive the same label because they are joined
through `cell_2` even though their direct correlation is below threshold. -/
theorem infer_topology_partition_reachability_witness :
    (∃! l, (("cell_1" : String), l) ∈ infer_topology corrExample (7 / 10)) ∧
    (infer_topology corrExample (7 / 10)).lookup "cell_1" =
      (infer_topology corrExample (7 / 10)).lookup "cell_3" := by
  have hthm := infer_topology_partition_reachability corrExample (7 / 10)
  have h1 : ("cell_1" : String) ∈ allCells corrExample := by decide
  have h3 : ("cell_3" : String) ∈ allCells corrExample := by decide
  have he12 : edgeB corrExample (7 / 10) "cell_1" "cell_2" = true := by
    simp only [corrExample, edgeB, Bool.or_eq_true, List.any_eq_true, Bool.and_eq_true,
      decide_eq_true_eq]
    left
    exact ⟨("cell_1", [("cell_2", 9 / 10), ("cell_3", 1 / 10)]), List.mem_cons_self _ _,
      rfl, ("cell_2", 9 / 10), List.mem_cons_self _ _, rfl, by norm_num⟩
  have he23 : edgeB corrExample (7 / 10) "cell_2" "cell_3" = true := by
    simp only [corrExample, edgeB, Bool.or_eq_true, List.any_eq_true, Bool.and_eq_true,
      decide_eq_true_eq]
    left
    refine ⟨("cell_2", [("cell_1", 9 / 10), ("cell_3", 8 / 10)]),
      List.mem_cons_of_mem _ (List.mem_cons_self _ _), rfl,
      ("cell_3", 8 / 10), List.mem_cons_of_mem _ (List.mem_cons_self _ _), rfl, by norm_num⟩
  exact ⟨hthm.1 "cell_1" h1,
    (hthm.2 "cell_1" h1 "cell_3" h3).2
      (Relation.ReflTransGen.tail (Relation.ReflTransGen.single he12) he23)⟩
